import Mathlib

/-!
Shallow embedding of the per-connection streaming pipeline of the voice
assistant server (Python sources under `server/`), together with proofs of
the behavioural properties stated in the specification.

Modelling conventions:
* byte strings are `List Nat` (each element one byte);
* Python's `dict`-shaped action objects are a structure with `Option` fields;
* thread-synchronised mutation (`with self._lock`) becomes pure state passing,
  which is faithful because every source operation holds the lock for its
  whole body;
* exceptions from external collaborators (the LLM client) are modelled with
  `Except Unit`.
-/

namespace LLMArduino

/-! ### Wire protocol, `server/src/protocol.py` -/

def PTYPE_START : Nat := 0x01
def PTYPE_AUDIO : Nat := 0x02
def PTYPE_END : Nat := 0x03
def PTYPE_PING : Nat := 0x10
def PTYPE_PONG : Nat := 0x1F
def PTYPE_CMD : Nat := 0x11
def PTYPE_AUDIO_OUT : Nat := 0x12
def PTYPE_BUFFER_STATUS : Nat := 0x13

/-- One framed packet: `u8 type ∥ u16le length ∥ payload`.  We keep the type
tag and the payload; the length field always equals `payload.length`. -/
structure Packet where
  ptype : Nat
  payload : List Nat
deriving DecidableEq, Repr

/-- The chunk size chosen by one iteration of the `AUDIO_OUT` loop of
`send_packet`: `min(remaining, audio_chunk)`, decremented when odd to stay on
the 2-byte sample boundary. -/
def audioChunkSize (audioChunk remaining : Nat) : Nat :=
  if (min remaining audioChunk) % 2 = 1 then (min remaining audioChunk) - 1
  else min remaining audioChunk

/-- The chunking loop of `send_packet` for `ptype == PTYPE_AUDIO_OUT`
(protocol.py lines 83-98): while at least 2 bytes remain, take
`min(remaining, audio_chunk)` bytes, rounded down to an even count, and emit
that chunk.  The loop is driven by fuel equal to the payload length, which
suffices whenever `2 ≤ audio_chunk` (each iteration consumes at least two
bytes; for `audio_chunk ≤ 1` the Python loop would not terminate). -/
def audioFramesGo (audioChunk : Nat) : Nat → List Nat → List (List Nat)
  | 0, _ => []
  | fuel+1, payload =>
    if payload.length < 2 then []
    else
      payload.take (audioChunkSize audioChunk payload.length) ::
        audioFramesGo audioChunk fuel
          (payload.drop (audioChunkSize audioChunk payload.length))

/-- Payloads of the `AUDIO_OUT` frames emitted by `send_packet` for a given
payload: the empty payload sends a single header-only packet (protocol.py
lines 78-80), otherwise the audio chunking loop runs. -/
def audioOutFrames (audioChunk : Nat) (payload : List Nat) : List (List Nat) :=
  if payload.length = 0 then [[]]
  else audioFramesGo audioChunk payload.length payload

/-- `send_audio` = `send_packet(conn, PTYPE_AUDIO_OUT, pcm_bytes)`: the
packets written to the socket for one audio payload. -/
def sendAudioPackets (audioChunk : Nat) (payload : List Nat) : List Packet :=
  (audioOutFrames audioChunk payload).map (fun f => ⟨PTYPE_AUDIO_OUT, f⟩)

/-- Outbound packets the STT worker writes for one agent reply
(server.py lines 349-360): `send_audio` for each cross-faded chunk, and
nothing else.  The mode-switch notification (server.py lines 243-246) is the
special case of a single payload. -/
def agentReplyPackets (audioChunk : Nat) (payloads : List (List Nat)) : List Packet :=
  payloads.flatMap (sendAudioPackets audioChunk)

/-! ### Input gate, `server/src/input_gate.py` -/

structure InputGate where
  busy : Bool
  stream_active : Bool
  drop_stream : Bool
deriving DecidableEq, Repr

inductive EndDecision where
  | accept
  | drop
  | ignore
deriving DecidableEq, Repr

def InputGate.init : InputGate := ⟨false, false, false⟩

def InputGate.mark_busy (g : InputGate) : InputGate := { g with busy := true }

def InputGate.mark_idle (g : InputGate) : InputGate := { g with busy := false }

def InputGate.start_stream (g : InputGate) : InputGate × Bool :=
  if g.busy || g.stream_active then
    ({ g with stream_active := true, drop_stream := true }, false)
  else
    ({ g with stream_active := true, drop_stream := false }, true)

def InputGate.can_accept_audio (g : InputGate) : Bool :=
  g.stream_active && !g.drop_stream

def InputGate.has_active_stream (g : InputGate) : Bool :=
  g.stream_active

def InputGate.end_stream (g : InputGate) : InputGate × EndDecision :=
  if !g.stream_active then (g, .ignore)
  else
    ({ g with stream_active := false, drop_stream := false },
     if g.drop_stream then .drop else .accept)

/-- The gate operations a session may interleave. -/
inductive GateOp where
  | mark_busy
  | mark_idle
  | start_stream
  | can_accept_audio
  | end_stream
deriving DecidableEq, Repr

/-- State transition of one gate operation (query operations leave the state
unchanged). -/
def gateStep (g : InputGate) : GateOp → InputGate
  | .mark_busy => g.mark_busy
  | .mark_idle => g.mark_idle
  | .start_stream => g.start_stream.1
  | .can_accept_audio => g
  | .end_stream => g.end_stream.1

def gateRun (g : InputGate) (ops : List GateOp) : InputGate :=
  ops.foldl gateStep g

/-! ### Bounded job queue, `server/src/job_queue.py` -/

/-- `queue.Queue.put_nowait`: fails (raises `Full`) iff the queue is bounded
and already holds at least `maxsize` items, else appends. -/
def putNowait {α : Type} (maxsize : Nat) (items : List α) (x : α) :
    Option (List α) :=
  if 0 < maxsize ∧ maxsize ≤ items.length then none else some (items ++ [x])

/-- `queue.Queue.get_nowait`: fails (raises `Empty`) iff no items. -/
def getNowait {α : Type} (items : List α) : Option (α × List α) :=
  match items with
  | [] => none
  | h :: t => some (h, t)

/-- `JobQueue.put` (job_queue.py lines 22-43): try to insert; when full and
`drop_oldest`, evict the head and retry.  Returns the new queue contents and
the success flag. -/
def JobQueue.put {α : Type} (maxsize : Nat) (items : List α) (x : α)
    (dropOldest : Bool) : List α × Bool :=
  match putNowait maxsize items x with
  | some items' => (items', true)
  | none =>
    if !dropOldest then (items, false)
    else
      match getNowait items with
      | none => (items, false)
      | some (_, rest) =>
        match putNowait maxsize rest x with
        | some items' => (items', true)
        | none => (rest, false)

/-- Operations on one queue: producer `put` (with its `drop_oldest` flag) and
consumer `get` (a timed-out `get` leaves the queue unchanged, so it needs no
separate case). -/
inductive QOp (α : Type) where
  | put (x : α) (dropOldest : Bool)
  | get
deriving DecidableEq, Repr

def qStep {α : Type} (maxsize : Nat) (items : List α) : QOp α → List α
  | .put x dropOldest => (JobQueue.put maxsize items x dropOldest).1
  | .get =>
    match getNowait items with
    | none => items
    | some (_, rest) => rest

def qRun {α : Type} (maxsize : Nat) (items : List α) (ops : List (QOp α)) :
    List α :=
  ops.foldl (qStep maxsize) items

/-! ### Text utilities, `server/src/utils.py` -/

/-- `clamp(value, lo, hi) = max(lo, min(hi, value))`. -/
def clamp (value lo hi : Int) : Int := max lo (min hi value)

/-- Python's `\s` / `str.strip()` whitespace, restricted to the ASCII
whitespace characters (the server's texts use only these). -/
def isSpaceChar (c : Char) : Bool :=
  c == ' ' || c == '\t' || c == '\n' || c == '\r' || c == '\x0b' || c == '\x0c'

/-- `str.strip()`. -/
def stripList (l : List Char) : List Char :=
  ((l.dropWhile (fun c => isSpaceChar c)).reverse.dropWhile
    (fun c => isSpaceChar c)).reverse

def pyStrip (s : String) : String := ⟨stripList s.data⟩

/-- The comma class `[,，]`. -/
def isCommaChar (c : Char) : Bool := c == ',' || c == '，'

/-- The punctuation class `[,，。.!?]` of the doubled-punctuation rule. -/
def isPunctPair (c : Char) : Bool :=
  c == ',' || c == '，' || c == '。' || c == '.' || c == '!' || c == '?'

/-- The punctuation set `",，。.!?…"` counted by the noise filter. -/
def isPunctCount (c : Char) : Bool := isPunctPair c || c == '…'

/-- Replacement of one maximal comma run: `re.sub(r"[,，]{3,}", ",", ·)`
rewrites a run of three or more commas to a single `','` and leaves shorter
runs alone. -/
def commaRunFlush (pending : List Char) : List Char :=
  if 3 ≤ pending.length then [','] else pending

/-- Single pass over the text accumulating the current maximal comma run in
`pending`. -/
def collapseCommaRunsGo (pending : List Char) : List Char → List Char
  | [] => commaRunFlush pending
  | c :: rest =>
    if isCommaChar c = true then collapseCommaRunsGo (pending ++ [c]) rest
    else commaRunFlush pending ++ c :: collapseCommaRunsGo [] rest

/-- `re.sub(r"[,，]{3,}", ",", t)`. -/
def collapseCommaRuns (l : List Char) : List Char := collapseCommaRunsGo [] l

/-- Tail of `re.sub(r"([,，。.!?])\1{1,}", r"\1", t)`: drop every character
equal to the previous one when it belongs to the punctuation class (the regex
rewrites each maximal run of one repeated punctuation character to a single
occurrence). -/
def collapseRepeatsGo (prev : Char) : List Char → List Char
  | [] => []
  | c :: rest =>
    if c = prev ∧ isPunctPair c = true then collapseRepeatsGo prev rest
    else c :: collapseRepeatsGo c rest

/-- `re.sub(r"([,，。.!?])\1{1,}", r"\1", t)`. -/
def collapseRepeats : List Char → List Char
  | [] => []
  | c :: rest => c :: collapseRepeatsGo c rest

/-- `re.sub(r"\s+", " ", t)`: every maximal whitespace run becomes one
`' '`. -/
def collapseWsGo (prevWs : Bool) : List Char → List Char
  | [] => []
  | c :: rest =>
    if isSpaceChar c = true then
      if prevWs then collapseWsGo true rest
      else ' ' :: collapseWsGo true rest
    else c :: collapseWsGo false rest

def collapseWs (l : List Char) : List Char := collapseWsGo false l

def punctCount (l : List Char) : Nat := l.countP (fun c => isPunctCount c)

/-- `re.sub(r"[,，]+$", "", t)` on an already-stripped string. -/
def dropTrailingCommas (l : List Char) : List Char :=
  (l.reverse.dropWhile (fun c => isCommaChar c)).reverse

/-- `clean_text` (utils.py lines 17-43).  Python compares the punctuation
ratio with the float literal `0.35`; the comparison is modelled exactly as
the rational inequality `punct / len > 35/100`, i.e. `35·len < 100·punct`. -/
def clean_text (l : List Char) : List Char :=
  let t0 := stripList l
  let t1 := collapseCommaRuns t0
  let t2 := collapseRepeats t1
  let t3 := stripList (collapseWs t2)
  if 8 ≤ t3.length ∧ 35 * t3.length < 100 * punctCount t3 then []
  else stripList (dropTrailingCommas t3)

def clean_text_str (s : String) : String := ⟨clean_text s.data⟩

/-- Substring test (Python's `needle in haystack`). -/
def hasSubstring (needle : List Char) : List Char → Bool
  | [] => needle.isEmpty
  | c :: rest => needle.isPrefixOf (c :: rest) || hasSubstring needle rest

def strContains (hay needle : String) : Bool := hasSubstring needle.data hay.data

/-! ### Audio DSP, `server/src/audio_processor.py`

`trim_energy` computes with NumPy float arrays; the embedding models the
samples, thresholds and the `10 ** (-top_db/20)` factor as real numbers
(exact arithmetic).  `int(sr * 0.02)` is modelled as `sr / 50`, exact at the
server's fixed sample rate 16000. -/

/-- RMS of the 20 ms frame starting at sample `i`:
`np.sqrt(np.mean(x * x) + 1e-12)` for `x = pcm[i : i + frame]`
(audio_processor.py lines 43-45). -/
noncomputable def frameRms (pcm : List ℝ) (frame i : Nat) : ℝ :=
  Real.sqrt ((((pcm.drop i).take frame).map (fun x => x * x)).sum / frame
    + 1e-12)

/-- Number of frames visited by `range(0, n - frame + 1, hop)` when
`frame ≤ n` (the function returns early otherwise). -/
def numFrames (n frame hop : Nat) : Nat :=
  if frame ≤ n then (n - frame) / hop + 1 else 0

/-- `np.max(rms)` over the frame RMS values. -/
noncomputable def maxRms (pcm : List ℝ) (frame hop : Nat) : ℝ :=
  (((List.range (numFrames pcm.length frame hop)).map
    (fun k => frameRms pcm frame (k * hop))).max?).getD 0

open scoped Classical in
/-- `np.where(rms > thr)[0]`: the frame indices whose RMS strictly exceeds
the threshold. -/
noncomputable def passFrames (pcm : List ℝ) (frame hop : Nat) (thr : ℝ) :
    List Nat :=
  (List.range (numFrames pcm.length frame hop)).filter
    (fun k => decide (thr < frameRms pcm frame (k * hop)))

/-- The threshold `np.max(rms) * 10 ** (-top_db / 20.0)`
(audio_processor.py line 49). -/
noncomputable def trimThr (pcm : List ℝ) (sr : Nat) (top_db : ℝ) : ℝ :=
  maxRms pcm (sr / 50) (sr / 50) * (10 : ℝ) ^ (-top_db / 20)

/-- The kept range `pcm[start:end]` with
`start = max(0, start_f·hop − int(sr·pad_ms/1000))` and
`end = min(n, end_f·hop + frame + int(sr·pad_ms/1000))`
(audio_processor.py lines 57-61). -/
noncomputable def trimSlice (pcm : List ℝ) (sr : Nat) (pad_ms : ℝ)
    (s e : Nat) : List ℝ :=
  (pcm.drop (max 0 ((s : Int) * ((sr / 50 : Nat) : Int) -
      ⌊(sr : ℝ) * pad_ms / 1000⌋)).toNat).take
    ((min (pcm.length : Int) ((e : Int) * ((sr / 50 : Nat) : Int) +
        ((sr / 50 : Nat) : Int) + ⌊(sr : ℝ) * pad_ms / 1000⌋) -
      max 0 ((s : Int) * ((sr / 50 : Nat) : Int) -
        ⌊(sr : ℝ) * pad_ms / 1000⌋)).toNat)

/-- `trim_energy` (audio_processor.py lines 25-61): empty or
shorter-than-one-frame inputs return unchanged; otherwise the first and last
frame above the threshold (`idx[0]`, `idx[-1]`) bound the padded slice, and
when no frame passes the input is returned unchanged. -/
noncomputable def trim_energy (pcm : List ℝ) (sr : Nat) (top_db : ℝ)
    (pad_ms : ℝ) : List ℝ :=
  if pcm.length = 0 then pcm
  else
    if pcm.length < sr / 50 then pcm
    else
      match (passFrames pcm (sr / 50) (sr / 50) (trimThr pcm sr top_db)).head?,
          (passFrames pcm (sr / 50) (sr / 50) (trimThr pcm sr top_db)).getLast? with
      | some s, some e => trimSlice pcm sr pad_ms s e
      | _, _ => pcm

/-! ### Robot mode, `server/src/robot_mode.py` -/

/-- A Python action dict.  Absent keys are `none`. -/
structure ActionDict where
  action : String
  servo : Option Int := none
  angle : Option Int := none
  mode : Option String := none
  sid : Option Nat := none
  meaningful : Option Bool := none
  recognized : Option Bool := none
deriving DecidableEq, Repr

/-- One entry of `actions_config` (commands.yaml).  `patternMatch` and
`captured` are oracles for `re.search(cmd["pattern"], t)` and
`int(match.group(1))`: the angle-clamping and fallback properties hold for
every outcome of the regex engine, so it is left abstract. -/
structure Cmd where
  keywords : List String := []
  patternMatch : String → Bool := fun _ => false
  useCaptured : Bool := false
  captured : String → Option Int := fun _ => none
  action : String := "NOOP"
  servo : Int := 0
  mode : String := "robot"
  angle : Option Int := none
  value : Option Int := none

/-- The keyword loop `for key in cmd["keywords"]: if key in t`. -/
def kwMatched (c : Cmd) (t : String) : Bool :=
  c.keywords.any (fun k => strContains t k)

def cmdMatched (c : Cmd) (t : String) : Bool :=
  kwMatched c t || c.patternMatch t

/-- `captured_val` is only set on the pattern branch (robot_mode.py lines
52-60): it stays `None` when a keyword matched first. -/
def capturedVal (c : Cmd) (t : String) : Option Int :=
  if kwMatched c t = true then none
  else if c.patternMatch t = true ∧ c.useCaptured = true then c.captured t
  else none

def DEFAULT_ANGLE_CENTER : Int := 90
def DEFAULT_STEP : Int := 20
def SERVO_MIN : Int := 0
def SERVO_MAX : Int := 180

/-- The command-matching loop of `process_text` (robot_mode.py lines 40-106)
applied to the already-stripped text. -/
def process_text_loop : List Cmd → String → Int → ActionDict × Bool × Int
  | [], _, currentAngle => ({ action := "NOOP" }, false, currentAngle)
  | c :: rest, t, currentAngle =>
    if cmdMatched c t = true then
      if c.action = "SWITCH_MODE" then
        ({ action := "SWITCH_MODE", mode := some c.mode }, true, currentAngle)
      else if c.action = "SERVO_SET" then
        let chosen : Option Int :=
          if c.useCaptured = true ∧ (capturedVal c t).isSome then capturedVal c t
          else c.angle
        let finalAngle := clamp (chosen.getD DEFAULT_ANGLE_CENTER) SERVO_MIN SERVO_MAX
        ({ action := "SERVO_SET", servo := some c.servo, angle := some finalAngle },
         true, finalAngle)
      else if c.action = "SERVO_INC" then
        let finalAngle :=
          clamp (currentAngle + c.value.getD DEFAULT_STEP) SERVO_MIN SERVO_MAX
        ({ action := "SERVO_SET", servo := some c.servo, angle := some finalAngle },
         true, finalAngle)
      else if c.action = "SERVO_DEC" then
        let finalAngle :=
          clamp (currentAngle - c.value.getD DEFAULT_STEP) SERVO_MIN SERVO_MAX
        ({ action := "SERVO_SET", servo := some c.servo, angle := some finalAngle },
         true, finalAngle)
      else
        ({ action := c.action, servo := some c.servo }, true, currentAngle)
    else process_text_loop rest t currentAngle

/-- `RobotMode.process_text` (robot_mode.py lines 29-113). -/
def process_text (cfg : List Cmd) (text : String) (currentAngle : Int) :
    ActionDict × Bool × Int :=
  let t := pyStrip text
  if t = "" then ({ action := "NOOP" }, false, currentAngle)
  else process_text_loop cfg t currentAngle

/-- `_determine_action` after the LLM call (robot_mode.py lines 204-212):
the argument is the outcome of `re.search(r"\{[^}]+\}", response)` plus
`json.loads` — `none` when no object was found. -/
def determine_action (parse : Option ActionDict) : ActionDict :=
  match parse with
  | some d =>
    match d.angle with
    | some a => { d with angle := some (clamp a SERVO_MIN SERVO_MAX) }
    | none => d
  | none => { action := "NOOP" }

/-- `_refine_stt` (robot_mode.py lines 130-157): texts shorter than 2
characters skip the LLM; an over-long or empty refinement is discarded. -/
def refine_stt (text : String) (llmRefined : Except Unit String) :
    Except Unit String :=
  if text.length < 2 then Except.ok text
  else
    llmRefined.map fun r =>
      if 3 * text.length < r.length ∨ r.length < 1 then text else r

/-- `process_with_llm` (robot_mode.py lines 115-128).  `llmRefined` models
the `_refine_stt` chat call, `llmParse` the `_determine_action` chat call
plus JSON parse: `Except.error` is a raised exception anywhere on the LLM
path, `Except.ok none` a response with no parsable `{...}` object. -/
def process_with_llm (cfg : List Cmd) (hasLLM : Bool) (text : String)
    (currentAngle : Int) (llmRefined : Except Unit String)
    (llmParse : Except Unit (Option ActionDict)) : String × ActionDict :=
  if hasLLM = false then (text, (process_text cfg text currentAngle).1)
  else
    match refine_stt text llmRefined with
    | .error _ => (text, (process_text cfg text currentAngle).1)
    | .ok refined =>
      match llmParse with
      | .error _ => (text, (process_text cfg text currentAngle).1)
      | .ok parse => (refined, determine_action parse)

/-- The worker's decoration of a robot action before sending (server.py
lines 267-270): attach `sid`, `meaningful`, `recognized`; the angle field is
not touched. -/
def worker_decorate (a : ActionDict) (sid : Nat) (text : String) : ActionDict :=
  { a with
    sid := some sid
    meaningful := some (a.action ≠ "NOOP")
    recognized := some (text ≠ "") }

/-! ### Agent mode, `server/src/agent_mode.py` -/

def sleepKeywords : List String := ["자러", "잘게", "잘게요", "잘게요", "그만", "쉬자"]

/-- `_check_sleep_commands` (agent_mode.py lines 381-388). -/
def check_sleep_commands (text : String) : Option String :=
  if sleepKeywords.any (fun k => strContains text k) then
    some "알겠어요. 쉬는 동안 조용히 있을게요."
  else none

/-- External collaborators of `generate_response`: whether the LLM client is
present, the outcome of `llm.chat` (`Except.error` = raised exception), and
`_sanitize_response` (left as an oracle — its regexes depend on the
configured assistant name and only post-process the reply string). -/
structure AgentEnv where
  modelLoaded : Bool
  llmReply : Except Unit String
  sanitizeResult : String → String

/-- `AgentMode.generate_response` (agent_mode.py lines 233-312) for a normal
(non-proactive) call: every return path yields a single `String` — the
function never returns a `(reply_text, intent)` pair. -/
def generate_response (env : AgentEnv) (text : String) : String :=
  if env.modelLoaded = false then "모델이 로드되지 않았습니다."
  else
    match check_sleep_commands text with
    | some r => r
    | none =>
      match env.llmReply with
      | .error _ => "죄송해요, 오류가 발생했어요."
      | .ok raw =>
        let s := env.sanitizeResult raw
        if s = "" then "무엇을 도와드릴까요?" else s

/-- Python's tuple destructuring `response, intent = <expr>` applied to a
string (server.py line 285): iterable unpacking succeeds only when the
string has exactly two characters, binding each name to a one-character
string; otherwise it raises `ValueError`. -/
def pyUnpackPair (s : String) : Option (String × String) :=
  match s.data with
  | [a, b] => some (⟨[a]⟩, ⟨[b]⟩)
  | _ => none

/-- The closed intent set of the specification (also
`_VALID_INTENTS` in `server/src/intent_parser.py`, which no module
imports). -/
def validIntents : List String := ["none", "sleep", "mode_robot", "mode_agent"]

/-- An environment with a loaded model, used to evaluate the dispatcher's
destructuring on concrete inputs. -/
def agentEnvSleep : AgentEnv :=
  { modelLoaded := true, llmReply := Except.ok "x", sanitizeResult := id }

/-- An environment whose sanitized LLM reply is the two-character string
`"네네"`. -/
def agentEnvTwoChar : AgentEnv :=
  { modelLoaded := true, llmReply := Except.ok "네네", sanitizeResult := id }

/-! ### Reader task, `server.py handle_connection` -/

/-- Per-connection reader state: the input gate, the `sid` counter, the
active stream id, the inbound audio buffer and the STT job queue. -/
structure ReaderState where
  gate : InputGate
  sid : Nat
  activeSid : Option Nat
  buf : List Nat
  queue : List (Nat × List Nat)
deriving DecidableEq, Repr

def ReaderState.init : ReaderState := ⟨InputGate.init, 0, none, [], []⟩

inductive InPacket where
  | start
  | audio (payload : List Nat)
  | end_pkt
  | ping
deriving DecidableEq, Repr

/-- The `PTYPE_END` block (server.py lines 435-463): end the stream; on
`accept`, mark busy and enqueue `(sid, buffer)` with drop-oldest, releasing
the gate when the enqueue fails; always clear the buffer and active sid. -/
def readerEnd (sttMaxsize : Nat) (st : ReaderState) : ReaderState :=
  let gd := st.gate.end_stream
  match gd.2 with
  | .ignore => { st with gate := gd.1, buf := [], activeSid := none }
  | .drop => { st with gate := gd.1, buf := [], activeSid := none }
  | .accept =>
    let sid := st.activeSid.getD st.sid
    let g2 := gd.1.mark_busy
    let qr := JobQueue.put sttMaxsize st.queue (sid, st.buf) true
    { gate := if qr.2 then g2 else g2.mark_idle
      sid := st.sid
      activeSid := none
      buf := []
      queue := qr.1 }

/-- One iteration of the reader loop (server.py lines 400-463) for one
complete inbound packet.  An `AUDIO` packet that pushes the buffer past
`max_audio_bytes` falls through into the `END` block of the same iteration
(`ptype = PTYPE_END`). -/
def readerStep (maxAudioBytes sttMaxsize : Nat) (st : ReaderState) :
    InPacket → ReaderState
  | .ping => st
  | .start =>
    let ga := st.gate.start_stream
    if ga.2 then
      { st with
        gate := ga.1
        buf := []
        sid := st.sid + 1
        activeSid := some (st.sid + 1) }
    else
      { st with gate := ga.1, buf := [], activeSid := none }
  | .audio payload =>
    if st.gate.has_active_stream = false then st
    else if st.gate.can_accept_audio = false then st
    else
      let buf' := st.buf ++ payload
      if maxAudioBytes < buf'.length then
        readerEnd sttMaxsize { st with buf := buf' }
      else { st with buf := buf' }
  | .end_pkt => readerEnd sttMaxsize st

def readerRun (maxAudioBytes sttMaxsize : Nat) (st : ReaderState)
    (pkts : List InPacket) : ReaderState :=
  pkts.foldl (readerStep maxAudioBytes sttMaxsize) st

/-! ### Properties of the audio packetization (claims C3 and C1) -/

theorem audioChunkSize_spec (audioChunk remaining : Nat)
    (hc : 2 ≤ audioChunk) (hr : 2 ≤ remaining) :
    audioChunkSize audioChunk remaining % 2 = 0 ∧
    2 ≤ audioChunkSize audioChunk remaining ∧
    audioChunkSize audioChunk remaining ≤ audioChunk ∧
    audioChunkSize audioChunk remaining ≤ remaining := by
  unfold audioChunkSize
  split <;> omega

theorem audioFramesGo_spec (audioChunk : Nat) (h2 : 2 ≤ audioChunk) :
    ∀ fuel payload, payload.length ≤ fuel →
      (∀ f ∈ audioFramesGo audioChunk fuel payload,
          f.length % 2 = 0 ∧ f.length ≤ audioChunk) ∧
      (audioFramesGo audioChunk fuel payload).flatten =
        payload.take (payload.length - payload.length % 2) := by
  intro fuel
  induction fuel with
  | zero =>
    intro payload hlen
    have hnil : payload = [] := List.eq_nil_of_length_eq_zero (Nat.le_zero.mp hlen)
    subst hnil
    simp [audioFramesGo]
  | succ n ih =>
    intro payload hlen
    by_cases hsmall : payload.length < 2
    · have hz : payload.length - payload.length % 2 = 0 := by omega
      constructor
      · intro f hf
        simp [audioFramesGo, hsmall] at hf
      · simp [audioFramesGo, hsmall, hz]
    · have hr : 2 ≤ payload.length := by omega
      obtain ⟨heven, h2cs, hle_chunk, hle_rem⟩ :=
        audioChunkSize_spec audioChunk payload.length h2 hr
      have hdrop : (payload.drop (audioChunkSize audioChunk payload.length)).length ≤ n := by
        simp only [List.length_drop]
        omega
      obtain ⟨ihF, ihJ⟩ := ih (payload.drop (audioChunkSize audioChunk payload.length)) hdrop
      have hunfold :
          audioFramesGo audioChunk (n + 1) payload =
            payload.take (audioChunkSize audioChunk payload.length) ::
              audioFramesGo audioChunk n
                (payload.drop (audioChunkSize audioChunk payload.length)) := by
        simp [audioFramesGo, hsmall]
      rw [hunfold]
      constructor
      · intro f hf
        rcases List.mem_cons.mp hf with rfl | hf'
        · constructor
          · simp only [List.length_take]
            omega
          · simp only [List.length_take]
            omega
        · exact ihF f hf'
      · rw [List.flatten_cons, ihJ]
        rw [List.length_drop]
        rw [← List.take_add]
        congr 1
        omega

/-- Claim C3: `send_packet` partitions every `AUDIO_OUT` payload into frames
of even length, each at most the configured audio chunk size, and the
concatenation of the frame payloads is the input payload with at most one
trailing odd byte dropped. -/
theorem send_packet_audio_out_partition (payload : List Nat) (audioChunk : Nat)
    (h2 : 2 ≤ audioChunk) :
    (∀ f ∈ audioOutFrames audioChunk payload,
        f.length % 2 = 0 ∧ f.length ≤ audioChunk) ∧
    (audioOutFrames audioChunk payload).flatten =
      payload.take (payload.length - payload.length % 2) := by
  unfold audioOutFrames
  by_cases h0 : payload.length = 0
  · have hnil : payload = [] := List.eq_nil_of_length_eq_zero h0
    subst hnil
    simp
  · simp only [h0, if_false]
    exact audioFramesGo_spec audioChunk h2 payload.length payload le_rfl

theorem send_packet_audio_out_partition_witness :
    2 ≤ 1024 ∧
    ((∀ f ∈ audioOutFrames 1024 [7, 8, 9],
        f.length % 2 = 0 ∧ f.length ≤ 1024) ∧
     (audioOutFrames 1024 [7, 8, 9]).flatten =
       [7, 8, 9].take ([7, 8, 9].length - [7, 8, 9].length % 2)) :=
  ⟨by norm_num, send_packet_audio_out_partition [7, 8, 9] 1024 (by norm_num)⟩

/-- Claim C1 is false of the code: the worker's reply path emits only
`AUDIO_OUT` packets and never a packet of type `0x13` (the protocol module
defines `0x13` as `PTYPE_BUFFER_STATUS` and no code path sends it).  At the
concrete reply consisting of one two-byte audio payload, the number of
`0x13` packets emitted is not one. -/
theorem agent_reply_missing_audio_out_end :
    ¬ ((agentReplyPackets 1024 [[1, 2]]).countP
        (fun p => p.ptype == PTYPE_BUFFER_STATUS) = 1) := by
  decide

/-- Claim C1, amended: after a completed outbound reply audio stream (agent
reply or mode-switch notification) the server emits no terminal packet at
all: every emitted packet has type `AUDIO_OUT` (`0x12`), and the number of
`0x13` packets is zero. -/
theorem agent_reply_all_audio_out (audioChunk : Nat) (payloads : List (List Nat)) :
    (∀ p ∈ agentReplyPackets audioChunk payloads, p.ptype = PTYPE_AUDIO_OUT) ∧
    (agentReplyPackets audioChunk payloads).countP
      (fun p => p.ptype == PTYPE_BUFFER_STATUS) = 0 := by
  have hall : ∀ p ∈ agentReplyPackets audioChunk payloads, p.ptype = PTYPE_AUDIO_OUT := by
    intro p hp
    simp only [agentReplyPackets, sendAudioPackets, List.mem_flatMap,
      List.mem_map] at hp
    obtain ⟨l, _, f, _, rfl⟩ := hp
    rfl
  refine ⟨hall, ?_⟩
  rw [List.countP_eq_zero]
  intro p hp
  have h := hall p hp
  simp only [h]
  decide

/-! ### Properties of the input gate (claim C4) -/

theorem gateStep_preserves_drop_imp_active (g : InputGate)
    (h : g.drop_stream = true → g.stream_active = true) (op : GateOp) :
    (gateStep g op).drop_stream = true → (gateStep g op).stream_active = true := by
  cases op <;>
    simp_all [gateStep, InputGate.mark_busy, InputGate.mark_idle,
      InputGate.start_stream, InputGate.end_stream] <;>
    split <;> simp_all

theorem gateRun_preserves_drop_imp_active (ops : List GateOp) :
    ∀ g : InputGate, (g.drop_stream = true → g.stream_active = true) →
      ((gateRun g ops).drop_stream = true → (gateRun g ops).stream_active = true) := by
  induction ops with
  | nil => intro g h; exact h
  | cons op rest ih =>
    intro g h
    exact ih (gateStep g op) (gateStep_preserves_drop_imp_active g h op)

theorem gateRun_drop_persists (mid : List GateOp) :
    ∀ g : InputGate, GateOp.end_stream ∉ mid →
      g.drop_stream = true → g.stream_active = true →
      (gateRun g mid).drop_stream = true ∧ (gateRun g mid).stream_active = true := by
  induction mid with
  | nil => intro g _ hd ha; exact ⟨hd, ha⟩
  | cons op rest ih =>
    intro g hnot hd ha
    have hop : op ≠ GateOp.end_stream := by
      intro hcontra; exact hnot (by simp [hcontra])
    have hrest : GateOp.end_stream ∉ rest := by
      intro hcontra; exact hnot (by simp [hcontra])
    have hstep : (gateStep g op).drop_stream = true ∧
        (gateStep g op).stream_active = true := by
      cases op <;>
        simp_all [gateStep, InputGate.mark_busy, InputGate.mark_idle,
          InputGate.start_stream]
    exact ih (gateStep g op) hrest hstep.1 hstep.2

/-- Claim C4: from the initial gate state, under any sequence of gate
operations, (i) a dropped stream is always the active one (the single
`stream_active` flag means at most one stream is active), (ii) whenever the
gate is busy or a stream is already active, `start_stream` is rejected and
the stream is marked as dropped, and (iii) after a `start_stream` rejected
while busy, the `end_stream` that closes that stream (no intervening
`end_stream`) returns the `drop` decision. -/
theorem input_gate_half_duplex (ops : List GateOp) :
    ((gateRun InputGate.init ops).drop_stream = true →
      (gateRun InputGate.init ops).stream_active = true) ∧
    ((gateRun InputGate.init ops).busy = true ∨
        (gateRun InputGate.init ops).stream_active = true →
      (gateRun InputGate.init ops).start_stream.2 = false ∧
      ((gateRun InputGate.init ops).start_stream.1).drop_stream = true) ∧
    ((gateRun InputGate.init ops).busy = true →
      ∀ mid : List GateOp, GateOp.end_stream ∉ mid →
        ((gateRun ((gateRun InputGate.init ops).start_stream.1) mid).end_stream).2 =
          EndDecision.drop) := by
  refine ⟨?_, ?_, ?_⟩
  · exact gateRun_preserves_drop_imp_active ops InputGate.init (by simp [InputGate.init])
  · intro h
    have hcond : ((gateRun InputGate.init ops).busy ||
        (gateRun InputGate.init ops).stream_active) = true := by
      rcases h with h | h <;> simp [h]
    constructor <;> simp [InputGate.start_stream, hcond]
  · intro hbusy mid hmid
    have hstart : ((gateRun InputGate.init ops).start_stream.1).drop_stream = true ∧
        ((gateRun InputGate.init ops).start_stream.1).stream_active = true := by
      simp [InputGate.start_stream, hbusy]
    obtain ⟨hd, ha⟩ :=
      gateRun_drop_persists mid ((gateRun InputGate.init ops).start_stream.1)
        hmid hstart.1 hstart.2
    simp [InputGate.end_stream, ha, hd]

theorem input_gate_half_duplex_witness :
    ((gateRun InputGate.init [GateOp.mark_busy]).busy = true ∨
      (gateRun InputGate.init [GateOp.mark_busy]).stream_active = true) ∧
    ((gateRun InputGate.init [GateOp.mark_busy]).start_stream.2 = false ∧
      ((gateRun InputGate.init [GateOp.mark_busy]).start_stream.1).drop_stream = true) ∧
    ((gateRun ((gateRun InputGate.init [GateOp.mark_busy]).start_stream.1)
        [GateOp.can_accept_audio]).end_stream).2 = EndDecision.drop :=
  ⟨Or.inl (by decide),
   (input_gate_half_duplex [GateOp.mark_busy]).2.1 (Or.inl (by decide)),
   (input_gate_half_duplex [GateOp.mark_busy]).2.2 (by decide)
     [GateOp.can_accept_audio] (by decide)⟩

/-! ### Properties of the bounded job queue (claim C5) -/

theorem jobQueue_put_full {α : Type} (N : Nat) (hN : 0 < N) (q : List α)
    (x : α) (hq : q.length = N) :
    JobQueue.put N q x true = (q.tail ++ [x], true) := by
  cases q with
  | nil =>
    simp only [List.length_nil] at hq
    omega
  | cons h t =>
    have hlen : t.length + 1 = N := by simpa using hq
    have c1 : N ≤ t.length + 1 := by omega
    have c2 : ¬ (N ≤ t.length) := by omega
    simp [JobQueue.put, putNowait, getNowait, hN, c1, c2]

theorem qStep_length_le {α : Type} (N : Nat) (hN : 0 < N) (q : List α)
    (op : QOp α) (h : q.length ≤ N) : (qStep N q op).length ≤ N := by
  cases op with
  | put x dropOldest =>
    by_cases hfull : N ≤ q.length
    · have hqN : q.length = N := le_antisymm h hfull
      cases q with
      | nil =>
        simp only [List.length_nil] at hqN
        omega
      | cons hd tl =>
        have hlen : tl.length + 1 = N := by simpa using hqN
        have c1 : N ≤ tl.length + 1 := by omega
        have c2 : ¬ (N ≤ tl.length) := by omega
        cases dropOldest <;>
          simp [qStep, JobQueue.put, putNowait, getNowait, hN, c1, c2] <;>
          omega
    · have c1 : ¬ (N ≤ q.length) := hfull
      simp [qStep, JobQueue.put, putNowait, c1]
      omega
  | get =>
    cases q with
    | nil => simp [qStep, getNowait]
    | cons hd tl =>
      simp only [qStep, getNowait, List.length_cons] at h ⊢
      omega

theorem qRun_length_le {α : Type} (N : Nat) (hN : 0 < N)
    (ops : List (QOp α)) :
    ∀ q : List α, q.length ≤ N → (qRun N q ops).length ≤ N := by
  induction ops with
  | nil => intro q h; exact h
  | cons op rest ih =>
    intro q h
    exact ih (qStep N q op) (qStep_length_le N hN q op h)

/-- Claim C5: for every sequence of `put`/`get` operations on a bounded queue
of capacity `N > 0`, starting empty, the queue never holds more than `N`
items; and a `put` with `drop_oldest` on a full queue evicts exactly the
oldest item, appends the new item at the back (preserving the FIFO order of
the surviving items), and reports success. -/
theorem job_queue_bounded_drop_oldest {α : Type} (N : Nat) (hN : 0 < N) :
    (∀ ops : List (QOp α), (qRun N [] ops).length ≤ N) ∧
    (∀ (q : List α) (x : α), q.length = N →
      JobQueue.put N q x true = (q.tail ++ [x], true)) :=
  ⟨fun ops => qRun_length_le N hN ops [] (by simp),
   fun q x hq => jobQueue_put_full N hN q x hq⟩

/-! ### Properties of the robot adapter (claims C7 and C8) -/

theorem clamp_mem (a : Int) :
    SERVO_MIN ≤ clamp a SERVO_MIN SERVO_MAX ∧
    clamp a SERVO_MIN SERVO_MAX ≤ SERVO_MAX := by
  unfold clamp SERVO_MIN SERVO_MAX
  omega

theorem process_text_loop_angle (cfg : List Cmd) (t : String) :
    ∀ (cur : Int) (ang : Int),
      ((process_text_loop cfg t cur).1).angle = some ang →
      SERVO_MIN ≤ ang ∧ ang ≤ SERVO_MAX := by
  induction cfg with
  | nil =>
    intro cur ang h
    simp [process_text_loop] at h
  | cons c rest ih =>
    intro cur ang h
    by_cases hm : cmdMatched c t = true
    · simp only [process_text_loop, hm, if_true] at h
      by_cases h1 : c.action = "SWITCH_MODE"
      · simp [h1] at h
      · by_cases h2 : c.action = "SERVO_SET"
        · simp [h1, h2] at h
          obtain ⟨rfl⟩ := h
          exact clamp_mem _
        · by_cases h3 : c.action = "SERVO_INC"
          · simp [h1, h2, h3] at h
            obtain ⟨rfl⟩ := h
            exact clamp_mem _
          · by_cases h4 : c.action = "SERVO_DEC"
            · simp [h1, h2, h3, h4] at h
              obtain ⟨rfl⟩ := h
              exact clamp_mem _
            · simp [h1, h2, h3, h4] at h
    · simp only [process_text_loop, hm, if_false] at h
      exact ih cur ang h

theorem process_text_angle (cfg : List Cmd) (text : String) (cur : Int)
    (ang : Int) (h : ((process_text cfg text cur).1).angle = some ang) :
    SERVO_MIN ≤ ang ∧ ang ≤ SERVO_MAX := by
  unfold process_text at h
  by_cases h0 : pyStrip text = ""
  · simp [h0] at h
  · simp only [h0, if_false] at h
    exact process_text_loop_angle cfg (pyStrip text) cur ang h

theorem determine_action_angle (parse : Option ActionDict) (ang : Int)
    (h : (determine_action parse).angle = some ang) :
    SERVO_MIN ≤ ang ∧ ang ≤ SERVO_MAX := by
  match parse with
  | none => simp [determine_action] at h
  | some d =>
    match hd : d.angle with
    | none => simp [determine_action, hd] at h
    | some a =>
      simp [determine_action, hd] at h
      obtain ⟨rfl⟩ := h
      exact clamp_mem _

/-- Claim C7: every action returned by the robot adapter — via the LLM
decision path or the keyword fallback path — that carries an `angle` field
has that angle in `[0, 180]`; the worker's decoration before emission
preserves the field, so every emitted `SERVO_SET` satisfies the bound. -/
theorem robot_action_angle_clamped (cfg : List Cmd) (hasLLM : Bool)
    (text : String) (cur : Int) (r : Except Unit String)
    (p : Except Unit (Option ActionDict)) (sid : Nat) :
    (∀ ang : Int,
      ((process_with_llm cfg hasLLM text cur r p).2).angle = some ang →
      SERVO_MIN ≤ ang ∧ ang ≤ SERVO_MAX) ∧
    (∀ ang : Int,
      (worker_decorate (process_with_llm cfg hasLLM text cur r p).2 sid text).angle
        = some ang →
      SERVO_MIN ≤ ang ∧ ang ≤ SERVO_MAX) := by
  have hmain : ∀ ang : Int,
      ((process_with_llm cfg hasLLM text cur r p).2).angle = some ang →
      SERVO_MIN ≤ ang ∧ ang ≤ SERVO_MAX := by
    intro ang h
    unfold process_with_llm at h
    by_cases hl : hasLLM = false
    · simp only [hl, if_true] at h
      exact process_text_angle cfg text cur ang h
    · simp only [hl, if_false] at h
      cases hr : refine_stt text r with
      | error e =>
        rw [hr] at h
        exact process_text_angle cfg text cur ang h
      | ok refined =>
        rw [hr] at h
        cases hp : p with
        | error e =>
          rw [hp] at h
          exact process_text_angle cfg text cur ang h
        | ok parse =>
          rw [hp] at h
          exact determine_action_angle parse ang h
  refine ⟨hmain, ?_⟩
  intro ang h
  exact hmain ang h

theorem robot_action_angle_clamped_witness :
    ((process_with_llm
        [{ keywords := ["왼쪽"], action := "SERVO_SET", angle := some 400 }]
        false "왼쪽으로 가" 90 (Except.ok "") (Except.ok none)).2).angle
      = some 180 ∧
    SERVO_MIN ≤ (180 : Int) ∧ (180 : Int) ≤ SERVO_MAX :=
  ⟨by decide,
   (robot_action_angle_clamped
      [{ keywords := ["왼쪽"], action := "SERVO_SET", angle := some 400 }]
      false "왼쪽으로 가" 90 (Except.ok "") (Except.ok none) 1).1 180 (by decide)⟩

/-- Claim C8 is false of the code: when the LLM path raises, the adapter
falls back to the keyword parser, which can return a non-`NOOP` action.
With one configured keyword command `멈춰 → STOP` and an LLM exception, the
result of `process_with_llm` is `STOP`, not `NOOP`. -/
theorem robot_llm_exception_not_noop :
    ((process_with_llm [{ keywords := ["멈춰"], action := "STOP" }] true
        "멈춰" 90 (Except.ok "멈춰") (Except.error ())).2).action ≠ "NOOP" := by
  decide

theorem process_text_loop_nomatch (cfg : List Cmd) (t : String) (cur : Int)
    (h : ∀ c ∈ cfg, cmdMatched c t = false) :
    process_text_loop cfg t cur = ({ action := "NOOP" }, false, cur) := by
  induction cfg with
  | nil => rfl
  | cons c rest ih =>
    have hc : cmdMatched c t = false := h c (by simp)
    have hrest : ∀ c ∈ rest, cmdMatched c t = false := by
      intro c' hc'
      exact h c' (by simp [hc'])
    simp only [process_text_loop, hc]
    simpa using ih hrest

/-- Claim C8, amended: the adapter never propagates an exception; on an
exception anywhere on the LLM path it falls back to the keyword parser
`process_text` (whose result is `NOOP` exactly when no configured command
matches), and when the LLM response contains no parsable JSON object it
returns `NOOP`. -/
theorem robot_llm_error_fallback (cfg : List Cmd) (text : String) (cur : Int)
    (r : Except Unit String) :
    ((process_with_llm cfg true text cur r (Except.error ())).2 =
      (process_text cfg text cur).1) ∧
    (∀ refined, refine_stt text r = Except.ok refined →
      (process_with_llm cfg true text cur r (Except.ok none)).2 =
        { action := "NOOP" }) ∧
    ((∀ c ∈ cfg, cmdMatched c (pyStrip text) = false) →
      (process_text cfg text cur).1 = { action := "NOOP" }) := by
  refine ⟨?_, ?_, ?_⟩
  · cases hr : refine_stt text r <;>
      simp [process_with_llm, hr]
  · intro refined hr
    simp [process_with_llm, hr, determine_action]
  · intro hall
    unfold process_text
    by_cases h0 : pyStrip text = ""
    · simp [h0]
    · simp only [h0, if_false]
      rw [process_text_loop_nomatch cfg (pyStrip text) cur hall]

theorem robot_llm_error_fallback_witness :
    ((process_with_llm [] true "멈춰" 90 (Except.ok "멈춰") (Except.error ())).2 =
      (process_text [] "멈춰" 90).1) ∧
    ((process_with_llm [] true "멈춰" 90 (Except.ok "멈춰") (Except.ok none)).2 =
      { action := "NOOP" }) ∧
    ((process_text [] "멈춰" 90).1 = { action := "NOOP" }) :=
  ⟨(robot_llm_error_fallback [] "멈춰" 90 (Except.ok "멈춰")).1,
   (robot_llm_error_fallback [] "멈춰" 90 (Except.ok "멈춰")).2.1 "멈춰" (by rfl),
   (robot_llm_error_fallback [] "멈춰" 90 (Except.ok "멈춰")).2.2
     (by intro c hc; simp at hc)⟩

/-! ### The agent adapter's return shape (claim C2) -/

/-- Claim C2's contract is violated by the code: `generate_response` returns
a bare string, so the dispatcher's destructuring `response, intent = ...`
either raises `ValueError` (whenever the reply is not exactly two
characters) or binds `intent` to a one-character string, which is never a
member of the closed intent set; at the concrete sleep-command input the
destructuring fails outright. -/
theorem agent_reply_is_string_not_pair :
    (∀ (env : AgentEnv) (text reply intent : String),
      pyUnpackPair (generate_response env text) = some (reply, intent) →
        intent ∉ validIntents) ∧
    pyUnpackPair (generate_response agentEnvSleep "그만") = none := by
  constructor
  · intro env text reply intent h
    have hlen : intent.length = 1 := by
      unfold pyUnpackPair at h
      cases hdata : (generate_response env text).data with
      | nil => rw [hdata] at h; simp at h
      | cons a t1 =>
        cases t1 with
        | nil => rw [hdata] at h; simp at h
        | cons b t2 =>
          cases t2 with
          | nil =>
            rw [hdata] at h
            simp only [Option.some.injEq, Prod.mk.injEq] at h
            rw [← h.2]
            rfl
          | cons cc t3 => rw [hdata] at h; simp at h
    intro hmem
    simp only [validIntents, List.mem_cons, List.not_mem_nil, or_false] at hmem
    rcases hmem with rfl | rfl | rfl | rfl <;> exact absurd hlen (by decide)
  · decide

theorem agent_reply_is_string_not_pair_witness :
    pyUnpackPair (generate_response agentEnvTwoChar "hello") =
      some ("네", "네") ∧
    "네" ∉ validIntents :=
  ⟨by decide,
   agent_reply_is_string_not_pair.1 agentEnvTwoChar "hello" "네" "네" (by decide)⟩

/-! ### The inbound audio buffer bound (claim C9) -/

theorem jobPut_mem {α : Type} (N : Nat) (q : List α) (x : α) (d : Bool) :
    ∀ a ∈ (JobQueue.put N q x d).1, a ∈ q ∨ a = x := by
  intro a ha
  unfold JobQueue.put at ha
  split at ha
  · next items' heq =>
    unfold putNowait at heq
    split at heq
    · exact absurd heq (by simp)
    · obtain rfl : q ++ [x] = items' := Option.some.inj heq
      simp only at ha
      rcases List.mem_append.mp ha with hm | hm
      · exact Or.inl hm
      · exact Or.inr (by simpa using hm)
  · next heq =>
    split at ha
    · exact Or.inl ha
    · split at ha
      · exact Or.inl ha
      · next hd tl heq2 =>
        have hq : q = hd :: tl := by
          unfold getNowait at heq2
          cases q with
          | nil => exact absurd heq2 (by simp)
          | cons h0 t0 =>
            obtain ⟨h1, h2⟩ := Prod.mk.injEq .. ▸ Option.some.inj heq2
            rw [h1, h2]
        split at ha
        · next items' heq3 =>
          unfold putNowait at heq3
          split at heq3
          · exact absurd heq3 (by simp)
          · obtain rfl : tl ++ [x] = items' := Option.some.inj heq3
            simp only at ha
            rcases List.mem_append.mp ha with hm | hm
            · exact Or.inl (hq ▸ List.mem_cons_of_mem hd hm)
            · exact Or.inr (by simpa using hm)
        · simp only at ha
          exact Or.inl (hq ▸ List.mem_cons_of_mem hd ha)

theorem readerEnd_buf (k : Nat) (st : ReaderState) :
    (readerEnd k st).buf = [] := by
  rcases h : st.gate.end_stream.2 <;> simp [readerEnd, h]

theorem readerEnd_queue_mem (k : Nat) (st : ReaderState) :
    ∀ job ∈ (readerEnd k st).queue, job ∈ st.queue ∨ job.2 = st.buf := by
  intro job hjob
  rcases h : st.gate.end_stream.2 with _ | _ | _
  · -- accept
    simp only [readerEnd, h] at hjob
    rcases jobPut_mem k st.queue (st.activeSid.getD st.sid, st.buf) true job hjob with
      hm | rfl
    · exact Or.inl hm
    · exact Or.inr rfl
  · simp only [readerEnd, h] at hjob
    exact Or.inl hjob
  · simp only [readerEnd, h] at hjob
    exact Or.inl hjob

theorem readerStep_inv (m k : Nat) (st : ReaderState) (pkt : InPacket)
    (hpkt : ∀ p, pkt = InPacket.audio p → p.length ≤ 65535)
    (hbuf : st.buf.length ≤ m)
    (hq : ∀ job ∈ st.queue, job.2.length ≤ m + 65535) :
    (readerStep m k st pkt).buf.length ≤ m ∧
    (∀ job ∈ (readerStep m k st pkt).queue, job.2.length ≤ m + 65535) := by
  cases pkt with
  | ping => exact ⟨hbuf, hq⟩
  | start =>
    by_cases hacc : st.gate.start_stream.2
    · refine ⟨by simp [readerStep, hacc], ?_⟩
      intro job hjob
      exact hq job (by simpa [readerStep, hacc] using hjob)
    · refine ⟨by simp [readerStep, hacc], ?_⟩
      intro job hjob
      exact hq job (by simpa [readerStep, hacc] using hjob)
  | end_pkt =>
    constructor
    · simp [readerStep, readerEnd_buf]
    · intro job hjob
      rcases readerEnd_queue_mem k st job hjob with hm | hb
      · exact hq job hm
      · rw [hb]; omega
  | audio p =>
    have hplen : p.length ≤ 65535 := hpkt p rfl
    by_cases hg1 : st.gate.has_active_stream = false
    · have hstep : readerStep m k st (InPacket.audio p) = st := by
        simp [readerStep, hg1]
      rw [hstep]
      exact ⟨hbuf, hq⟩
    · by_cases hg2 : st.gate.can_accept_audio = false
      · have hstep : readerStep m k st (InPacket.audio p) = st := by
          simp [readerStep, hg1, hg2]
        rw [hstep]
        exact ⟨hbuf, hq⟩
      · by_cases hover : m < (st.buf ++ p).length
        · have hstep : readerStep m k st (InPacket.audio p) =
              readerEnd k { st with buf := st.buf ++ p } := by
            have hover' : m < st.buf.length + p.length := by
              simpa using hover
            simp [readerStep, hg1, hg2, hover']
          rw [hstep]
          constructor
          · simp [readerEnd_buf]
          · intro job hjob
            rcases readerEnd_queue_mem k _ job hjob with hm | hb
            · exact hq job hm
            · rw [hb]
              simp only [List.length_append]
              omega
        · have hstep : readerStep m k st (InPacket.audio p) =
              { st with buf := st.buf ++ p } := by
            have hover' : ¬ (m < st.buf.length + p.length) := by
              simpa using hover
            simp [readerStep, hg1, hg2, hover']
          rw [hstep]
          exact ⟨by simpa using Nat.le_of_not_lt hover, hq⟩

/-- Claim C9, amended: at packet-processing boundaries the inbound buffer
never exceeds `max_audio_bytes`, but an `AUDIO` packet that pushes it past
the limit first grows the buffer and then forces the synthetic `END`, so the
enqueued job keeps the oversized data; with wire payloads bounded by the
`u16` frame limit 65535, every enqueued job is at most
`max_audio_bytes + 65535` bytes. -/
theorem reader_buffer_invariant (m k : Nat) (pkts : List InPacket)
    (hp : ∀ p, InPacket.audio p ∈ pkts → p.length ≤ 65535) :
    (readerRun m k ReaderState.init pkts).buf.length ≤ m ∧
    (∀ job ∈ (readerRun m k ReaderState.init pkts).queue,
      job.2.length ≤ m + 65535) := by
  have hgen : ∀ (l : List InPacket) (st : ReaderState),
      (∀ p, InPacket.audio p ∈ l → p.length ≤ 65535) →
      st.buf.length ≤ m →
      (∀ job ∈ st.queue, job.2.length ≤ m + 65535) →
      (readerRun m k st l).buf.length ≤ m ∧
      (∀ job ∈ (readerRun m k st l).queue, job.2.length ≤ m + 65535) := by
    intro l
    induction l with
    | nil => intro st _ hbuf hq; exact ⟨hbuf, hq⟩
    | cons pkt rest ih =>
      intro st hl hbuf hq
      have hpkt : ∀ p, pkt = InPacket.audio p → p.length ≤ 65535 := by
        intro p hp'
        exact hl p (by simp [hp'])
      have hrest : ∀ p, InPacket.audio p ∈ rest → p.length ≤ 65535 := by
        intro p hp'
        exact hl p (by simp [hp'])
      obtain ⟨h1, h2⟩ := readerStep_inv m k st pkt hpkt hbuf hq
      exact ih (readerStep m k st pkt) hrest h1 h2
  exact hgen pkts ReaderState.init hp (by simp [ReaderState.init])
    (by simp [ReaderState.init])

theorem reader_buffer_invariant_witness :
    (readerRun 10 4 ReaderState.init
        [InPacket.start, InPacket.audio [1, 2, 3], InPacket.end_pkt]).buf.length
      ≤ 10 ∧
    (∀ job ∈ (readerRun 10 4 ReaderState.init
        [InPacket.start, InPacket.audio [1, 2, 3], InPacket.end_pkt]).queue,
      job.2.length ≤ 10 + 65535) :=
  reader_buffer_invariant 10 4
    [InPacket.start, InPacket.audio [1, 2, 3], InPacket.end_pkt]
    (by
      intro p hp
      simp at hp
      subst hp
      decide)

theorem readerStep_audio_grow (m k : Nat) (st : ReaderState) (p : List Nat)
    (hg : st.gate = ⟨false, true, false⟩)
    (hlen : ¬ (m < st.buf.length + p.length)) :
    readerStep m k st (InPacket.audio p) = { st with buf := st.buf ++ p } := by
  simp [readerStep, InputGate.has_active_stream, InputGate.can_accept_audio,
    hg, hlen]

theorem readerStep_audio_force_end (m k : Nat) (st : ReaderState) (p : List Nat)
    (hg : st.gate = ⟨false, true, false⟩)
    (hlen : m < st.buf.length + p.length) :
    readerStep m k st (InPacket.audio p) =
      readerEnd k { st with buf := st.buf ++ p } := by
  simp [readerStep, InputGate.has_active_stream, InputGate.can_accept_audio,
    hg, hlen]

theorem readerEnd_accept_empty (k : Nat) (st : ReaderState)
    (hg : st.gate = ⟨false, true, false⟩) (hq : st.queue = []) :
    readerEnd k st =
      { gate := ⟨true, false, false⟩, sid := st.sid, activeSid := none,
        buf := [], queue := [(st.activeSid.getD st.sid, st.buf)] } := by
  have hcond : ¬ (0 < k ∧ k ≤ (0 : Nat)) := by omega
  have hcond' : ¬ (0 < k ∧ k = 0) := by omega
  simp [readerEnd, InputGate.end_stream, InputGate.mark_busy, hg, hq,
    JobQueue.put, putNowait, hcond, hcond']

theorem readerRun_six_packets (p : List Nat) (hp : p.length = 65535) :
    ∃ buf, (readerRun 384000 4 ReaderState.init
        [InPacket.start, InPacket.audio p, InPacket.audio p, InPacket.audio p,
         InPacket.audio p, InPacket.audio p, InPacket.audio p]).queue
      = [(1, buf)] ∧ buf.length = 393210 := by
  have s1 : readerStep 384000 4 ReaderState.init InPacket.start =
      ⟨⟨false, true, false⟩, 1, some 1, [], []⟩ := by
    simp [readerStep, ReaderState.init, InputGate.init, InputGate.start_stream]
  have s2 : readerStep 384000 4 (⟨⟨false, true, false⟩, 1, some 1, [], []⟩ :
      ReaderState) (InPacket.audio p) =
      ⟨⟨false, true, false⟩, 1, some 1, [] ++ p, []⟩ :=
    readerStep_audio_grow 384000 4 _ p rfl (by simp [hp])
  have s3 : readerStep 384000 4 (⟨⟨false, true, false⟩, 1, some 1, [] ++ p, []⟩ :
      ReaderState) (InPacket.audio p) =
      ⟨⟨false, true, false⟩, 1, some 1, [] ++ p ++ p, []⟩ :=
    readerStep_audio_grow 384000 4 _ p rfl (by simp [hp])
  have s4 : readerStep 384000 4 (⟨⟨false, true, false⟩, 1, some 1,
      [] ++ p ++ p, []⟩ : ReaderState) (InPacket.audio p) =
      ⟨⟨false, true, false⟩, 1, some 1, [] ++ p ++ p ++ p, []⟩ :=
    readerStep_audio_grow 384000 4 _ p rfl (by simp [hp])
  have s5 : readerStep 384000 4 (⟨⟨false, true, false⟩, 1, some 1,
      [] ++ p ++ p ++ p, []⟩ : ReaderState) (InPacket.audio p) =
      ⟨⟨false, true, false⟩, 1, some 1, [] ++ p ++ p ++ p ++ p, []⟩ :=
    readerStep_audio_grow 384000 4 _ p rfl (by simp [hp])
  have s6 : readerStep 384000 4 (⟨⟨false, true, false⟩, 1, some 1,
      [] ++ p ++ p ++ p ++ p, []⟩ : ReaderState) (InPacket.audio p) =
      ⟨⟨false, true, false⟩, 1, some 1, [] ++ p ++ p ++ p ++ p ++ p, []⟩ :=
    readerStep_audio_grow 384000 4 _ p rfl (by simp [hp])
  have s7 : readerStep 384000 4 (⟨⟨false, true, false⟩, 1, some 1,
      [] ++ p ++ p ++ p ++ p ++ p, []⟩ : ReaderState) (InPacket.audio p) =
      ⟨⟨true, false, false⟩, 1, none, [],
        [(1, [] ++ p ++ p ++ p ++ p ++ p ++ p)]⟩ := by
    rw [readerStep_audio_force_end 384000 4 _ p rfl (by simp [hp])]
    rw [readerEnd_accept_empty 4 _ rfl rfl]
    rfl
  refine ⟨[] ++ p ++ p ++ p ++ p ++ p ++ p, ?_, by simp [hp]⟩
  show (List.foldl (readerStep 384000 4) ReaderState.init _).queue = _
  rw [List.foldl_cons, s1, List.foldl_cons, s2, List.foldl_cons, s3,
    List.foldl_cons, s4, List.foldl_cons, s5, List.foldl_cons, s6,
    List.foldl_cons, s7, List.foldl_nil]

/-- Claim C9 is false of the code at the reference configuration
`max_audio_bytes = 12 · 16000 · 2 = 384000`: six accepted 65535-byte `AUDIO`
packets leave a job of 393210 bytes in the STT queue, exceeding the limit. -/
theorem reader_oversized_job :
    ∃ job ∈ (readerRun 384000 4 ReaderState.init
        [InPacket.start,
         InPacket.audio (List.replicate 65535 0),
         InPacket.audio (List.replicate 65535 0),
         InPacket.audio (List.replicate 65535 0),
         InPacket.audio (List.replicate 65535 0),
         InPacket.audio (List.replicate 65535 0),
         InPacket.audio (List.replicate 65535 0)]).queue,
      384000 < job.2.length := by
  obtain ⟨buf, hq, hlen⟩ :=
    readerRun_six_packets (List.replicate 65535 0) (by rw [List.length_replicate])
  refine ⟨(1, buf), ?_, ?_⟩
  · rw [hq]; simp
  · show 384000 < buf.length
    omega

theorem job_queue_bounded_drop_oldest_witness :
    (qRun 4 ([] : List Nat)
        [QOp.put 1 true, QOp.put 2 true, QOp.put 3 true, QOp.put 4 true,
         QOp.put 5 true, QOp.get]).length ≤ 4 ∧
    JobQueue.put 4 [1, 2, 3, 4] (5 : Nat) true = ([2, 3, 4, 5], true) :=
  ⟨(job_queue_bounded_drop_oldest 4 (by norm_num)).1 _,
   (job_queue_bounded_drop_oldest 4 (by norm_num)).2 [1, 2, 3, 4] 5 (by decide)⟩

/-! ### Text sanitation (claim C6) -/

theorem dropWhile_all_neg {p : Char → Bool} {l : List Char}
    (h : ∀ c ∈ l, p c = false) : l.dropWhile p = l := by
  induction l with
  | nil => rfl
  | cons c rest ih =>
    have hc : p c = false := h c (by simp)
    simp [List.dropWhile_cons, hc]

theorem head?_dropWhile {p : Char → Bool} {l : List Char} {c : Char}
    (h : (l.dropWhile p).head? = some c) : p c = false := by
  induction l with
  | nil => simp at h
  | cons a rest ih =>
    by_cases ha : p a
    · simp [List.dropWhile_cons, ha] at h
      exact ih h
    · simp [List.dropWhile_cons, ha] at h
      subst h
      simp [ha]

theorem dropWhile_dropWhile {p : Char → Bool} (l : List Char) :
    (l.dropWhile p).dropWhile p = l.dropWhile p := by
  cases hd : l.dropWhile p with
  | nil => rfl
  | cons c rest =>
    have hc : p c = false := head?_dropWhile (by rw [hd]; rfl)
    simp [List.dropWhile_cons, hc]

theorem stripBack_prefix (l : List Char) :
    (l.reverse.dropWhile (fun c => isSpaceChar c)).reverse <+: l := by
  have h0 : l.reverse.dropWhile (fun c => isSpaceChar c) <:+ l.reverse :=
    List.dropWhile_suffix _
  have h2 := List.reverse_prefix.mpr h0
  rw [List.reverse_reverse] at h2
  exact h2

theorem stripList_isInfix (l : List Char) : stripList l <:+: l := by
  have h1 : l.dropWhile (fun c => isSpaceChar c) <:+ l := List.dropWhile_suffix _
  have h2 : stripList l <+: l.dropWhile (fun c => isSpaceChar c) :=
    stripBack_prefix (l.dropWhile (fun c => isSpaceChar c))
  exact h2.isInfix.trans h1.isInfix

theorem stripList_mem {l : List Char} {c : Char} (h : c ∈ stripList l) :
    c ∈ l :=
  (stripList_isInfix l).sublist.mem h

theorem stripList_idem (l : List Char) :
    stripList (stripList l) = stripList l := by
  by_cases hnil : stripList l = []
  · rw [hnil]; rfl
  · have hhead : ∀ c, (stripList l).head? = some c → isSpaceChar c = false := by
      intro c hc
      have hpre : stripList l <+: l.dropWhile (fun c => isSpaceChar c) :=
        stripBack_prefix (l.dropWhile (fun c => isSpaceChar c))
      have hheads : (stripList l).head? =
          (l.dropWhile (fun c => isSpaceChar c)).head? := by
        obtain ⟨t, ht⟩ := hpre
        rw [← ht]
        cases hs : stripList l with
        | nil => exact absurd hs hnil
        | cons a s => rfl
      exact head?_dropWhile (by rw [← hheads]; exact hc)
    have hfront : (stripList l).dropWhile (fun c => isSpaceChar c) =
        stripList l := by
      cases hs : stripList l with
      | nil => rfl
      | cons a s =>
        have ha : isSpaceChar a = false := hhead a (by rw [hs]; rfl)
        simp [List.dropWhile_cons, ha]
    have hrev : (stripList l).reverse =
        (l.dropWhile (fun c => isSpaceChar c)).reverse.dropWhile
          (fun c => isSpaceChar c) := by
      simp [stripList]
    show (((stripList l).dropWhile (fun c => isSpaceChar c)).reverse.dropWhile
        (fun c => isSpaceChar c)).reverse = stripList l
    rw [hfront, hrev, dropWhile_dropWhile, ← hrev, List.reverse_reverse]

theorem collapseCommaRunsGo_noop {l : List Char}
    (h : ∀ c ∈ l, isCommaChar c = false) : collapseCommaRunsGo [] l = l := by
  induction l with
  | nil => rfl
  | cons c rest ih =>
    have hc : isCommaChar c = false := h c (by simp)
    have hrest : ∀ c ∈ rest, isCommaChar c = false := fun c hc' =>
      h c (by simp [hc'])
    simp [collapseCommaRunsGo, hc, commaRunFlush, ih hrest]

theorem collapseRepeatsGo_mem {prev : Char} {l : List Char} {c : Char}
    (h : c ∈ collapseRepeatsGo prev l) : c ∈ l := by
  induction l generalizing prev with
  | nil => simp [collapseRepeatsGo] at h
  | cons a rest ih =>
    by_cases ha : a = prev ∧ isPunctPair a = true
    · simp only [collapseRepeatsGo, if_pos ha] at h
      exact List.mem_cons_of_mem a (ih h)
    · simp only [collapseRepeatsGo, if_neg ha] at h
      rcases List.mem_cons.mp h with rfl | h'
      · simp
      · exact List.mem_cons_of_mem a (ih h')

theorem collapseRepeats_mem {l : List Char} {c : Char}
    (h : c ∈ collapseRepeats l) : c ∈ l := by
  cases l with
  | nil => simp [collapseRepeats] at h
  | cons a rest =>
    rcases List.mem_cons.mp h with rfl | h'
    · simp
    · exact List.mem_cons_of_mem a (collapseRepeatsGo_mem h')

theorem collapseRepeatsGo_head {prev : Char} {l : List Char} {c : Char}
    (h : (collapseRepeatsGo prev l).head? = some c) :
    ¬ (c = prev ∧ isPunctPair c = true) := by
  induction l generalizing prev with
  | nil => simp [collapseRepeatsGo] at h
  | cons a rest ih =>
    by_cases ha : a = prev ∧ isPunctPair a = true
    · simp only [collapseRepeatsGo, if_pos ha] at h
      exact ih h
    · simp only [collapseRepeatsGo, if_neg ha] at h
      simp at h
      subst h
      exact ha

theorem collapseRepeatsGo_chain (prev : Char) (l : List Char) :
    List.Chain' (fun a b => ¬ (b = a ∧ isPunctPair b = true))
      (collapseRepeatsGo prev l) := by
  induction l generalizing prev with
  | nil => simp [collapseRepeatsGo]
  | cons a rest ih =>
    by_cases ha : a = prev ∧ isPunctPair a = true
    · simp only [collapseRepeatsGo, if_pos ha]
      exact ih prev
    · simp only [collapseRepeatsGo, if_neg ha]
      rw [List.chain'_cons']
      refine ⟨?_, ih a⟩
      intro b hb
      exact collapseRepeatsGo_head hb

theorem collapseRepeats_chain (l : List Char) :
    List.Chain' (fun a b => ¬ (b = a ∧ isPunctPair b = true))
      (collapseRepeats l) := by
  cases l with
  | nil => simp [collapseRepeats]
  | cons a rest =>
    show List.Chain' _ (a :: collapseRepeatsGo a rest)
    rw [List.chain'_cons']
    refine ⟨?_, collapseRepeatsGo_chain a rest⟩
    intro b hb
    exact collapseRepeatsGo_head hb

theorem collapseRepeatsGo_noop {prev : Char} {l : List Char}
    (hhead : ∀ c, l.head? = some c → ¬ (c = prev ∧ isPunctPair c = true))
    (hchain : List.Chain' (fun a b => ¬ (b = a ∧ isPunctPair b = true)) l) :
    collapseRepeatsGo prev l = l := by
  induction l generalizing prev with
  | nil => rfl
  | cons a rest ih =>
    have ha : ¬ (a = prev ∧ isPunctPair a = true) := hhead a rfl
    simp only [collapseRepeatsGo, if_neg ha]
    congr 1
    obtain ⟨hh, hc⟩ := List.chain'_cons'.mp hchain
    exact ih hh hc

theorem collapseRepeats_noop {l : List Char}
    (hchain : List.Chain' (fun a b => ¬ (b = a ∧ isPunctPair b = true)) l) :
    collapseRepeats l = l := by
  cases l with
  | nil => rfl
  | cons a rest =>
    show a :: collapseRepeatsGo a rest = a :: rest
    congr 1
    obtain ⟨hh, hc⟩ := List.chain'_cons'.mp hchain
    exact collapseRepeatsGo_noop hh hc

theorem collapseWsGo_mem {b : Bool} {l : List Char} {c : Char}
    (h : c ∈ collapseWsGo b l) : c = ' ' ∨ c ∈ l := by
  induction l generalizing b with
  | nil => simp [collapseWsGo] at h
  | cons a rest ih =>
    by_cases ha : isSpaceChar a = true
    · cases b with
      | true =>
        simp only [collapseWsGo, if_pos ha] at h
        rcases ih h with h' | h'
        · exact Or.inl h'
        · exact Or.inr (List.mem_cons_of_mem a h')
      | false =>
        simp only [collapseWsGo, if_pos ha] at h
        rcases List.mem_cons.mp h with rfl | h'
        · exact Or.inl rfl
        · rcases ih h' with h'' | h''
          · exact Or.inl h''
          · exact Or.inr (List.mem_cons_of_mem a h'')
    · simp only [collapseWsGo, if_neg ha] at h
      rcases List.mem_cons.mp h with rfl | h'
      · exact Or.inr (by simp)
      · rcases ih h' with h'' | h''
        · exact Or.inl h''
        · exact Or.inr (List.mem_cons_of_mem a h'')

theorem collapseWsGo_ws_blank {b : Bool} {l : List Char} {c : Char}
    (h : c ∈ collapseWsGo b l) (hc : isSpaceChar c = true) : c = ' ' := by
  induction l generalizing b with
  | nil => simp [collapseWsGo] at h
  | cons a rest ih =>
    by_cases ha : isSpaceChar a = true
    · cases b with
      | true =>
        simp only [collapseWsGo, if_pos ha] at h
        exact ih h
      | false =>
        simp only [collapseWsGo, if_pos ha] at h
        rcases List.mem_cons.mp h with rfl | h'
        · rfl
        · exact ih h'
    · simp only [collapseWsGo, if_neg ha] at h
      rcases List.mem_cons.mp h with rfl | h'
      · exact absurd hc (by simp [ha])
      · exact ih h'

theorem collapseWsGo_true_head {l : List Char} {c : Char}
    (h : (collapseWsGo true l).head? = some c) : isSpaceChar c = false := by
  induction l with
  | nil => simp [collapseWsGo] at h
  | cons a rest ih =>
    by_cases ha : isSpaceChar a = true
    · simp only [collapseWsGo, if_pos ha] at h
      exact ih h
    · simp only [collapseWsGo, if_neg ha] at h
      simp at h
      subst h
      simpa using ha

theorem collapseWsGo_false_head (l : List Char) :
    (collapseWsGo false l).head? =
      l.head?.map (fun c => if isSpaceChar c = true then ' ' else c) := by
  cases l with
  | nil => rfl
  | cons a rest =>
    by_cases ha : isSpaceChar a = true
    · simp [collapseWsGo, ha]
    · simp [collapseWsGo, ha]

theorem collapseWsGo_noTwoWs (b : Bool) (l : List Char) :
    List.Chain' (fun a c => ¬ (isSpaceChar a = true ∧ isSpaceChar c = true))
      (collapseWsGo b l) := by
  induction l generalizing b with
  | nil => simp [collapseWsGo]
  | cons a rest ih =>
    by_cases ha : isSpaceChar a = true
    · cases b with
      | true =>
        simp only [collapseWsGo, if_pos ha]
        exact ih true
      | false =>
        simp only [collapseWsGo, if_pos ha]
        show List.Chain' _ (' ' :: collapseWsGo true rest)
        rw [List.chain'_cons']
        refine ⟨?_, ih true⟩
        intro c hc hcon
        have hcw : isSpaceChar c = true := hcon.2
        rw [collapseWsGo_true_head hc] at hcw
        exact absurd hcw (by decide)
    · simp only [collapseWsGo, if_neg ha]
      rw [List.chain'_cons']
      refine ⟨?_, ih false⟩
      intro c _ hcon
      have haw : isSpaceChar a = true := hcon.1
      rw [haw] at ha
      exact ha rfl

theorem collapseWsGo_preserves_chain {b : Bool} {l : List Char}
    (h : List.Chain' (fun a c => ¬ (c = a ∧ isPunctPair c = true)) l) :
    List.Chain' (fun a c => ¬ (c = a ∧ isPunctPair c = true))
      (collapseWsGo b l) := by
  induction l generalizing b with
  | nil => simp [collapseWsGo]
  | cons a rest ih =>
    obtain ⟨hh, hrest⟩ := List.chain'_cons'.mp h
    by_cases ha : isSpaceChar a = true
    · cases b with
      | true =>
        simp only [collapseWsGo, if_pos ha]
        exact ih hrest
      | false =>
        simp only [collapseWsGo, if_pos ha]
        show List.Chain' _ (' ' :: collapseWsGo true rest)
        rw [List.chain'_cons']
        refine ⟨?_, ih hrest⟩
        intro c _ hcon
        obtain ⟨h1, h2⟩ := hcon
        rw [h1] at h2
        exact absurd h2 (by decide)
    · simp only [collapseWsGo, if_neg ha]
      rw [List.chain'_cons']
      refine ⟨?_, ih hrest⟩
      intro c hc
      rw [collapseWsGo_false_head rest] at hc
      cases hr : rest.head? with
      | none => rw [hr] at hc; simp at hc
      | some e =>
        rw [hr] at hc
        have hc2 : (if isSpaceChar e = true then ' ' else e) = c := by
          simpa using hc
        by_cases he : isSpaceChar e = true
        · rw [if_pos he] at hc2
          rw [← hc2]
          intro hcon
          exact absurd hcon.2 (by decide)
        · rw [if_neg he] at hc2
          rw [← hc2]
          exact hh e (by simp [hr])

theorem collapseWsGo_noop {l : List Char} (b : Bool)
    (hblank : ∀ c ∈ l, isSpaceChar c = true → c = ' ')
    (hchain : List.Chain' (fun a c => ¬ (isSpaceChar a = true ∧ isSpaceChar c = true)) l)
    (hhead : b = true → ∀ d, l.head? = some d → isSpaceChar d = false) :
    collapseWsGo b l = l := by
  induction l generalizing b with
  | nil => rfl
  | cons a rest ih =>
    obtain ⟨hh, hrest⟩ := List.chain'_cons'.mp hchain
    have hblank' : ∀ c ∈ rest, isSpaceChar c = true → c = ' ' := by
      intro c hc hcw
      exact hblank c (List.mem_cons_of_mem a hc) hcw
    by_cases ha : isSpaceChar a = true
    · cases b with
      | true => exact absurd ha (by simp [hhead rfl a rfl])
      | false =>
        have haeq : a = ' ' := hblank a (by simp) ha
        simp only [collapseWsGo, if_pos ha]
        show ' ' :: collapseWsGo true rest = a :: rest
        rw [haeq]
        congr 1
        refine ih true hblank' hrest ?_
        intro _ d hd
        by_contra hdw
        simp only [Bool.not_eq_false] at hdw
        exact hh d hd ⟨ha, hdw⟩
    · simp only [collapseWsGo, if_neg ha]
      congr 1
      exact ih false hblank' hrest (by simp)

theorem dropTrailingCommas_noop {l : List Char}
    (h : ∀ c ∈ l, isCommaChar c = false) : dropTrailingCommas l = l := by
  unfold dropTrailingCommas
  rw [dropWhile_all_neg, List.reverse_reverse]
  intro c hc
  exact h c (List.mem_reverse.mp hc)

/-- Claim C6 is false of the code: cleaning is not idempotent.  On
`"a, ,"` one application yields `"a,"` (the trailing-comma strip removes only
the final comma run, leaving a comma behind the space), and a second
application yields `"a"`. -/
theorem clean_text_not_idempotent :
    clean_text_str (clean_text_str "a, ,") ≠ clean_text_str "a, ," := by
  decide

/-- Claim C6, amended: `clean_text` is idempotent on every input containing
no comma character (`','` or `'，'`); in general a comma separated from the
end by whitespace survives one pass and is stripped by the next, so
idempotence fails (e.g. on `"a, ,"`). -/
theorem clean_text_idempotent_comma_free (l : List Char)
    (hl : ∀ c ∈ l, isCommaChar c = false) :
    clean_text (clean_text l) = clean_text l := by
  have h0comma : ∀ c ∈ stripList l, isCommaChar c = false := fun c hc =>
    hl c (stripList_mem hc)
  have h1 : collapseCommaRuns (stripList l) = stripList l :=
    collapseCommaRunsGo_noop h0comma
  have h2comma : ∀ c ∈ collapseRepeats (stripList l), isCommaChar c = false :=
    fun c hc => h0comma c (collapseRepeats_mem hc)
  have h2chain : List.Chain' (fun a b => ¬ (b = a ∧ isPunctPair b = true))
      (collapseRepeats (stripList l)) := collapseRepeats_chain (stripList l)
  have h3comma : ∀ c ∈ stripList (collapseWs (collapseRepeats (stripList l))),
      isCommaChar c = false := by
    intro c hc
    rcases collapseWsGo_mem (stripList_mem hc) with rfl | hc'
    · decide
    · exact h2comma c hc'
  have h3chain : List.Chain' (fun a b => ¬ (b = a ∧ isPunctPair b = true))
      (stripList (collapseWs (collapseRepeats (stripList l)))) :=
    List.Chain'.infix (collapseWsGo_preserves_chain h2chain) (stripList_isInfix _)
  have h3blank : ∀ c ∈ stripList (collapseWs (collapseRepeats (stripList l))),
      isSpaceChar c = true → c = ' ' := by
    intro c hc hcw
    exact collapseWsGo_ws_blank (stripList_mem hc) hcw
  have h3nows : List.Chain'
      (fun a c => ¬ (isSpaceChar a = true ∧ isSpaceChar c = true))
      (stripList (collapseWs (collapseRepeats (stripList l)))) :=
    List.Chain'.infix (collapseWsGo_noTwoWs false (collapseRepeats (stripList l)))
      (stripList_isInfix _)
  have h3strip : stripList (stripList (collapseWs (collapseRepeats (stripList l)))) =
      stripList (collapseWs (collapseRepeats (stripList l))) :=
    stripList_idem _
  have hml : clean_text l =
      (if 8 ≤ (stripList (collapseWs (collapseRepeats (stripList l)))).length ∧
          35 * (stripList (collapseWs (collapseRepeats (stripList l)))).length <
            100 * punctCount (stripList (collapseWs (collapseRepeats (stripList l))))
       then []
       else stripList (dropTrailingCommas
         (stripList (collapseWs (collapseRepeats (stripList l)))))) := by
    show (if 8 ≤ (stripList (collapseWs (collapseRepeats (collapseCommaRuns (stripList l))))).length ∧
          35 * (stripList (collapseWs (collapseRepeats (collapseCommaRuns (stripList l))))).length <
            100 * punctCount (stripList (collapseWs (collapseRepeats (collapseCommaRuns (stripList l)))))
       then ([] : List Char)
       else stripList (dropTrailingCommas
         (stripList (collapseWs (collapseRepeats (collapseCommaRuns (stripList l))))))) = _
    rw [h1]
  rw [hml]
  by_cases hC : 8 ≤ (stripList (collapseWs (collapseRepeats (stripList l)))).length ∧
      35 * (stripList (collapseWs (collapseRepeats (stripList l)))).length <
        100 * punctCount (stripList (collapseWs (collapseRepeats (stripList l))))
  · rw [if_pos hC]
    decide
  · rw [if_neg hC]
    have htail : stripList (dropTrailingCommas
        (stripList (collapseWs (collapseRepeats (stripList l))))) =
        stripList (collapseWs (collapseRepeats (stripList l))) := by
      rw [dropTrailingCommas_noop h3comma, h3strip]
    rw [htail]
    have p1 : collapseCommaRuns (stripList (collapseWs (collapseRepeats (stripList l)))) =
        stripList (collapseWs (collapseRepeats (stripList l))) :=
      collapseCommaRunsGo_noop h3comma
    have p2 : collapseRepeats (stripList (collapseWs (collapseRepeats (stripList l)))) =
        stripList (collapseWs (collapseRepeats (stripList l))) :=
      collapseRepeats_noop h3chain
    have p3 : collapseWs (stripList (collapseWs (collapseRepeats (stripList l)))) =
        stripList (collapseWs (collapseRepeats (stripList l))) :=
      collapseWsGo_noop false h3blank h3nows (by simp)
    have hmT : clean_text (stripList (collapseWs (collapseRepeats (stripList l)))) =
        (if 8 ≤ (stripList (collapseWs (collapseRepeats (stripList l)))).length ∧
            35 * (stripList (collapseWs (collapseRepeats (stripList l)))).length <
              100 * punctCount (stripList (collapseWs (collapseRepeats (stripList l))))
         then []
         else stripList (dropTrailingCommas
           (stripList (collapseWs (collapseRepeats (stripList l)))))) := by
      show (if 8 ≤ (stripList (collapseWs (collapseRepeats (collapseCommaRuns (stripList
            (stripList (collapseWs (collapseRepeats (stripList l))))))))).length ∧
          35 * (stripList (collapseWs (collapseRepeats (collapseCommaRuns (stripList
            (stripList (collapseWs (collapseRepeats (stripList l))))))))).length <
            100 * punctCount (stripList (collapseWs (collapseRepeats (collapseCommaRuns (stripList
            (stripList (collapseWs (collapseRepeats (stripList l))))))))) then ([] : List Char)
         else stripList (dropTrailingCommas (stripList (collapseWs (collapseRepeats (collapseCommaRuns (stripList
            (stripList (collapseWs (collapseRepeats (stripList l))))))))))) = _
      rw [h3strip, p1, p2, p3, h3strip]
    rw [hmT, if_neg hC, htail]

/-! ### Energy trimming (claim C10) -/

theorem frameRms_pos (pcm : List ℝ) (frame i : Nat) :
    0 < frameRms pcm frame i := by
  unfold frameRms
  apply Real.sqrt_pos.mpr
  have hs : 0 ≤ (((pcm.drop i).take frame).map (fun x => x * x)).sum := by
    apply List.sum_nonneg
    intro x hx
    obtain ⟨y, _, rfl⟩ := List.mem_map.mp hx
    exact mul_self_nonneg y
  have hdiv : 0 ≤ (((pcm.drop i).take frame).map (fun x => x * x)).sum /
      (frame : ℝ) := div_nonneg hs (Nat.cast_nonneg frame)
  have he : (0 : ℝ) < 1e-12 := by norm_num
  linarith

/-- Claim C10: `trim_energy` always returns a contiguous slice of its input,
and at 16 kHz, for any input of at least one 20 ms frame (320 samples) and
any `top_db > 0`, at least one frame's RMS strictly exceeds the threshold
`max_rms · 10^(-top_db/20)` (the maximal frame itself), so the
`np.where`-empty branch returning the input unchanged is reachable only for
empty or shorter-than-one-frame inputs. -/
theorem trim_energy_slice_and_threshold (pcm : List ℝ) (top_db pad_ms : ℝ) :
    (∃ a b, trim_energy pcm 16000 top_db pad_ms = (pcm.drop a).take b) ∧
    (320 ≤ pcm.length → 0 < top_db →
      passFrames pcm 320 320
        (maxRms pcm 320 320 * (10 : ℝ) ^ (-top_db / 20)) ≠ []) := by
  constructor
  · unfold trim_energy
    split_ifs with h0 h1
    · exact ⟨0, pcm.length, by simp⟩
    · exact ⟨0, pcm.length, by simp⟩
    · split
      · exact ⟨_, _, rfl⟩
      · exact ⟨0, pcm.length, by simp⟩

  · intro hlen htop
    have hnum : 1 ≤ numFrames pcm.length 320 320 := by
      unfold numFrames
      rw [if_pos hlen]
      omega
    have hLne : ((List.range (numFrames pcm.length 320 320)).map
        (fun k => frameRms pcm 320 (k * 320))) ≠ [] := by
      simp only [ne_eq, List.map_eq_nil_iff, List.range_eq_nil]
      omega
    obtain ⟨m, hm⟩ : ∃ m, ((List.range (numFrames pcm.length 320 320)).map
        (fun k => frameRms pcm 320 (k * 320))).max? = some m := by
      cases hmax : ((List.range (numFrames pcm.length 320 320)).map
          (fun k => frameRms pcm 320 (k * 320))).max? with
      | none => exact absurd (List.max?_eq_none_iff.mp hmax) hLne
      | some m => exact ⟨m, rfl⟩
    have hmmem : m ∈ ((List.range (numFrames pcm.length 320 320)).map
        (fun k => frameRms pcm 320 (k * 320))) :=
      List.max?_mem (fun a b => max_choice a b) hm
    obtain ⟨k, hk, hkm⟩ := List.mem_map.mp hmmem
    have hmpos : 0 < m := hkm ▸ frameRms_pos pcm 320 (k * 320)
    have hmax_eq : maxRms pcm 320 320 = m := by
      unfold maxRms
      rw [hm]
      rfl
    have hthr : maxRms pcm 320 320 * (10 : ℝ) ^ (-top_db / 20) < m := by
      rw [hmax_eq]
      have hc1 : (10 : ℝ) ^ (-top_db / 20) < 1 := by
        apply Real.rpow_lt_one_of_one_lt_of_neg (by norm_num)
        exact div_neg_of_neg_of_pos (by linarith) (by norm_num)
      calc m * (10 : ℝ) ^ (-top_db / 20) < m * 1 :=
            mul_lt_mul_of_pos_left hc1 hmpos
        _ = m := mul_one m
    have hkmem : k ∈ passFrames pcm 320 320
        (maxRms pcm 320 320 * (10 : ℝ) ^ (-top_db / 20)) := by
      unfold passFrames
      rw [List.mem_filter]
      refine ⟨hk, ?_⟩
      rw [hkm]
      exact decide_eq_true hthr
    exact List.ne_nil_of_mem hkmem

theorem trim_energy_slice_and_threshold_witness :
    320 ≤ (List.replicate 320 (1 : ℝ)).length ∧ (0 : ℝ) < 35 ∧
    passFrames (List.replicate 320 (1 : ℝ)) 320 320
      (maxRms (List.replicate 320 (1 : ℝ)) 320 320 *
        (10 : ℝ) ^ (-(35 : ℝ) / 20)) ≠ [] :=
  ⟨by simp only [List.length_replicate, le_refl], by norm_num,
   (trim_energy_slice_and_threshold (List.replicate 320 (1 : ℝ)) 35 140).2
     (by simp only [List.length_replicate, le_refl]) (by norm_num)⟩

theorem clean_text_idempotent_comma_free_witness :
    (∀ c ∈ ("hello!!  world".data), isCommaChar c = false) ∧
    clean_text (clean_text ("hello!!  world".data)) =
      clean_text ("hello!!  world".data) :=
  ⟨by decide, clean_text_idempotent_comma_free _ (by decide)⟩

end LLMArduino
